import Mathlib

/-!
Verification development for the job-dispatch core of the cavity-md-ipi
repository (file `ipi/engine/forcefields.py`).

The Python code is shallowly embedded as follows.

* A `ForceRequest` is a Python dict subclass whose `__eq__` is overridden to
  object identity (`self is y`).  We model the Python heap explicitly: a
  request reference is an index (a token) into `FFState.heap`, and the
  dict's field values are the `ReqData` stored at that index.  Two distinct
  tokens may hold equal `ReqData` (value-equal but distinct objects);
  `reqEq` models the overridden `__eq__` and compares tokens only.
* Numpy position arrays are also heap objects (`FFState.arrays`), so that
  `.copy()` and in-place mutation (`cell.array_pbc(pbcpos)`) are visible:
  a record's `pos` field is an index into `FFState.arrays`.
* Real numbers are modelled as `ℚ`.  Wall-clock `time.time()` is modelled
  by the monotone counter `FFState.clock`; the spec states timestamps are
  diagnostics only, never used for correctness.
* `cell.array_pbc` (periodic-boundary folding, defined outside the sources
  in `ipi/engine/cell.py`) is an explicit parameter `fold` of `ff_queue`;
  every theorem quantifies over it.
* `ForceField.queue` raising `ValueError` is modelled by `Except.error`;
  since the exception is raised before any attribute mutation, the caller
  keeps the unchanged state.
-/

/-- Request status strings used in `forcefields.py`:
"Queued", "Running", "Done", "Exit". -/
inductive Status where
  | Queued
  | Running
  | Done
  | Exit
deriving DecidableEq, Repr

/-- A 3x3 virial matrix (`np.zeros((3,3))` etc.), stored componentwise. -/
structure Mat3 where
  m11 : ℚ
  m12 : ℚ
  m13 : ℚ
  m21 : ℚ
  m22 : ℚ
  m23 : ℚ
  m31 : ℚ
  m32 : ℚ
  m33 : ℚ
deriving DecidableEq, Repr

def Mat3.zero : Mat3 := ⟨0, 0, 0, 0, 0, 0, 0, 0, 0⟩

/-- Componentwise matrix addition (`result_tot[2] += vir`). -/
def Mat3.add (a b : Mat3) : Mat3 :=
  ⟨a.m11 + b.m11, a.m12 + b.m12, a.m13 + b.m13,
   a.m21 + b.m21, a.m22 + b.m22, a.m23 + b.m23,
   a.m31 + b.m31, a.m32 + b.m32, a.m33 + b.m33⟩

/-- The result tuple `[u, f, vir, extra]` stored into `r["result"]`. -/
structure FFResult where
  u : ℚ
  f : List ℚ
  vir : Mat3
  extra : String
deriving DecidableEq, Repr

/-- The system box: the pair of matrices `(cell.h, cell.ih)`. -/
structure Cell where
  h : List (List ℚ)
  ih : List (List ℚ)
deriving DecidableEq, Repr

/-- Field values of a `ForceRequest` dict built in `ForceField.queue`.
`pos` is a reference (index) into the array heap `FFState.arrays`,
mirroring the numpy array object stored under the `"pos"` key. -/
structure ReqData where
  reqid : Int
  pos : Nat
  active : List Int
  cellmats : List (List ℚ) × List (List ℚ)
  pars : String
  result : Option FFResult
  status : Status
  start : Int
  t_queued : Nat
  t_dispatched : Nat
  t_finished : Nat
deriving DecidableEq, Repr

/-- A placeholder record (used only as the default of `headD`/`getLastD`;
the Python code indexes `newreq_lst[0]` and `newreq_lst[-1]` on a list that
is never empty because `n_independent_bath >= 1`). -/
def defaultReq : ReqData :=
  ⟨-1, 0, [], ([], []), " ", none, Status.Queued, -1, 0, 0, 0⟩

/-- Constructor arguments of `ForceField.__init__` that the claims need:
`pars`, `dopbc`, `active`, `threaded`. -/
structure FFConfig where
  name : String
  pars : List (String × String)
  dopbc : Bool
  active : List Int
  threaded : Bool
deriving DecidableEq, Repr

/-- Mutable state of one `ForceField` (Dispatch Core) instance together
with the fragment of the Python heap it touches:
`arrays` is the heap of numpy position arrays, `heap` the heap of
`ForceRequest` objects, `requests` the shared queue (a list of references),
`iactive` the lazily computed `self.iactive`, `clock` the wall clock, and
`doloop` the polling-loop run flag `_doloop[0]`. -/
structure FFState where
  arrays : List (List ℚ)
  heap : List ReqData
  requests : List Nat
  iactive : Option (List Int)
  clock : Nat
  doloop : Bool
deriving DecidableEq, Repr

/-- A freshly constructed `ForceField` whose caller owns the arrays
`arrs`: `self.requests = []`, `self.iactive = None`. -/
def initStateWith (arrs : List (List ℚ)) : FFState :=
  ⟨arrs, [], [], none, 0, false⟩

/-- `ForceRequest.__eq__`: `a == b` holds iff `a is b`, i.e. iff the two
references are the same heap token. -/
def reqEq (a b : Nat) : Bool := a == b

/-- The parameter string built at the top of `ForceField.queue`:
`par_str = " "` then `par_str += k + " : " + str(v) + " , "` per item. -/
def mkParStr (pars : List (String × String)) : String :=
  pars.foldl (fun acc kv => acc ++ kv.1 ++ " : " ++ kv.2 ++ " , ") " "

/-- The per-coordinate active index array computed on first submission:
`np.arange(len(pbcpos))` when `self.active[0] == -1`, otherwise the
flattening of `[[3n, 3n+1, 3n+2] for n in self.active]`. -/
def computeActive (active : List Int) (npos : Nat) : List Int :=
  if active.headD 0 = -1 then (List.range npos).map Int.ofNat
  else (active.map (fun n => [3 * n, 3 * n + 1, 3 * n + 2])).flatten

/-- The sanity check in `ForceField.queue`:
`len(activehere) > len(pbcpos) or activehere[-1] > (len(pbcpos) - 1)`.
Note only the LAST flattened index is compared against the bound. -/
def activeGuard (ah : List Int) (npos : Nat) : Prop :=
  ah.length > npos ∨ ah.getLastD 0 > (npos : Int) - 1

instance (ah : List Int) (npos : Nat) : Decidable (activeGuard ah npos) := by
  unfold activeGuard; infer_instance

/-- The zero result written by the base `ForceField.poll`:
`[0.0, np.zeros(len(r["pos"])), np.zeros((3,3)), ""]`. -/
def zeroResultFor (len : Nat) : FFResult :=
  ⟨0, List.replicate len 0, Mat3.zero, ""⟩

/-- Completion of one Queued record inside the base `ForceField.poll` loop:
set `t_dispatched`, write the zero result, mark "Done", set `t_finished`. -/
def completeReq (arrays : List (List ℚ)) (clk : Nat) (d : ReqData) : ReqData :=
  { d with
    t_dispatched := clk,
    result := some (zeroResultFor (arrays.getD d.pos []).length),
    status := Status.Done,
    t_finished := clk }

/-- One iteration of the `for r in self.requests` loop of `ForceField.poll`:
records whose status is not "Queued" are skipped. -/
def pollStep (s : FFState) (tok : Nat) : FFState :=
  match s.heap.get? tok with
  | some d =>
      if d.status = Status.Queued then
        { s with heap := s.heap.set tok (completeReq s.arrays s.clock d) }
      else s
  | none => s

/-- The loop of `ForceField.poll` over the (frozen) request list. -/
def pollAux : FFState → List Nat → FFState
  | s, [] => s
  | s, t :: ts => pollAux (pollStep s t) ts

/-- `ForceField.poll` (base/dummy backend), run under `self._threadlock`. -/
def ff_poll (s : FFState) : FFState :=
  pollAux s s.requests

/-- The private position copy `pbcpos = dstrip(atoms.q).copy()`, folded in
place by `cell.array_pbc(pbcpos)` when `self.dopbc` — the caller's own
array at `qref` is never touched.  `enqueueNew` below is the second half
of `ForceField.queue`: build the new `ForceRequest` with status "Queued",
append it (and the private position copy) under the lock, and, when not
threaded, run one synchronous `poll` pass before returning; `ia` is the
value of `self.iactive`, already set by the caller. -/
def pbcOf (cfg : FFConfig) (fold : Cell → List ℚ → List ℚ) (s : FFState)
    (qref : Nat) (cell : Cell) : List ℚ :=
  if cfg.dopbc then fold cell (s.arrays.getD qref [])
  else s.arrays.getD qref []

/-- The fresh `ForceRequest` dict literal built in `ForceField.queue`,
with status "Queued" and `start = -1`. -/
def newReqOf (s : FFState) (cell : Cell) (reqid : Int) (parStr : String)
    (ia : List Int) : ReqData :=
  { reqid := reqid
    pos := s.arrays.length
    active := ia
    cellmats := (cell.h, cell.ih)
    pars := parStr
    result := none
    status := Status.Queued
    start := -1
    t_queued := s.clock
    t_dispatched := 0
    t_finished := 0 }

/-- The state right after `self.requests.append(newreq)` (lock released),
before the optional synchronous poll. -/
def enqueuedState (cfg : FFConfig) (fold : Cell → List ℚ → List ℚ)
    (s : FFState) (qref : Nat) (cell : Cell) (reqid : Int) (parStr : String)
    (ia : List Int) : FFState :=
  { s with
    arrays := s.arrays ++ [pbcOf cfg fold s qref cell]
    heap := s.heap ++ [newReqOf s cell reqid parStr ia]
    requests := s.requests ++ [s.heap.length]
    clock := s.clock + 1 }

def enqueueNew (cfg : FFConfig) (fold : Cell → List ℚ → List ℚ) (s : FFState)
    (qref : Nat) (cell : Cell) (reqid : Int) (parStr : String)
    (ia : List Int) : FFState × Nat :=
  (if cfg.threaded then enqueuedState cfg fold s qref cell reqid parStr ia
   else ff_poll (enqueuedState cfg fold s qref cell reqid parStr ia),
   s.heap.length)

/-- `ForceField.queue`.  `qref` is the caller's reference to `atoms.q`;
`pbcpos = dstrip(atoms.q).copy()` allocates a fresh array, which is the
only array `cell.array_pbc` (the `fold` parameter) mutates.  The lazily
computed `self.iactive` is validated (raising `ValueError` — modelled as
`Except.error` — before any state is mutated) and cached on first call. -/
def ff_queue (cfg : FFConfig) (fold : Cell → List ℚ → List ℚ) (s : FFState)
    (qref : Nat) (cell : Cell) (reqid : Int) :
    Except String (FFState × Nat) :=
  let parStr := mkParStr cfg.pars
  let atomsq := s.arrays.getD qref []
  match s.iactive with
  | some ia => Except.ok (enqueueNew cfg fold s qref cell reqid parStr ia)
  | none =>
      let ah := computeActive cfg.active atomsq.length
      if activeGuard ah atomsq.length then
        Except.error "There are more active atoms than atoms!"
      else
        Except.ok (enqueueNew cfg fold { s with iactive := some ah }
          qref cell reqid parStr ah)

/-- `ForceField.release`: under the lock, `if request in self.requests:
self.requests.remove(request)`.  Membership and removal use the identity
`__eq__`, i.e. token equality; `list.remove` drops the first occurrence.
The guarded `remove` cannot raise (membership is re-checked under the same
lock), so the function is total. -/
def ff_release (s : FFState) (tok : Nat) : FFState :=
  if tok ∈ s.requests then { s with requests := s.requests.erase tok } else s

/-- One iteration of the `for r in self.requests` loop of
`ForceField.stop`: `r["status"] = "Exit"`. -/
def stopStep (s : FFState) (tok : Nat) : FFState :=
  match s.heap.get? tok with
  | some d => { s with heap := s.heap.set tok { d with status := Status.Exit } }
  | none => s

/-- The loop of `ForceField.stop`: `for r in self.requests:
r["status"] = "Exit"` — every tracked record is forced to "Exit". -/
def stopAux : FFState → List Nat → FFState
  | s, [] => s
  | s, t :: ts => stopAux (stopStep s t) ts

/-- `ForceField.stop`: clear the run flag and force every tracked record
to "Exit". -/
def ff_stop (s : FFState) : FFState :=
  { stopAux s s.requests with doloop := false }

/-- Well-formedness maintained by the Dispatch Core: the queue holds no
duplicate references (each `ForceRequest` is appended exactly once), every
queued reference points into the record heap, and every record's position
array points into the array heap. -/
def WF (s : FFState) : Prop :=
  s.requests.Nodup ∧ (∀ tok ∈ s.requests, tok < s.heap.length) ∧
    (∀ d ∈ s.heap, d.pos < s.arrays.length)

/-- Every tracked record is "Done" and carries the zero result of the
base/dummy backend, with the force array as long as the record's position
array (§8 of the spec: non-threaded mode postcondition). -/
def AllDoneZero (s : FFState) : Prop :=
  ∀ tok ∈ s.requests, ∃ d, s.heap.get? tok = some d ∧
    d.status = Status.Done ∧
    d.result = some (zeroResultFor (s.arrays.getD d.pos []).length)

/-- Record field values read through a reference, defaulted (used only to
name concrete records in witnesses). -/
def recAt (s : FFState) (tok : Nat) : ReqData :=
  (s.heap.get? tok).getD defaultReq

/-- Status of the record behind a reference. -/
def statusAt (s : FFState) (tok : Nat) : Option Status :=
  (s.heap.get? tok).map ReqData.status

/-- State carried by an `Except`-returning queue call (the caller keeps the
old state when the call raised). -/
def stateOf (s : FFState) (r : Except String (FFState × Nat)) : FFState :=
  match r with
  | Except.ok p => p.1
  | Except.error _ => s

/-- Queue length observed through an `Except`-returning queue call. -/
def queueLenOf (s : FFState) (r : Except String (FFState × Nat)) : Nat :=
  (stateOf s r).requests.length

/-- A trivial periodic folding used by the concrete witnesses. -/
def foldId : Cell → List ℚ → List ℚ := fun _ xs => xs

/-- A concrete empty box for witnesses. -/
def cell0 : Cell := ⟨[[1, 0, 0], [0, 1, 0], [0, 0, 1]], [[1, 0, 0], [0, 1, 0], [0, 0, 1]]⟩

/-- Overwrite the slice `l[off : off + vals.length]` with `vals`
(numpy slice assignment `result_tot[1][a:b] = f`; on the happy path
`len(f)` equals the slice width `b - a`). -/
def setSlice : List ℚ → Nat → List ℚ → List ℚ
  | l, _, [] => l
  | l, off, v :: vs => setSlice (l.set off v) (off + 1) vs

/-- The fan-in loop of `FFCavPhFPSocket.queue` (step 3 of the algorithm):
`result_tot[0] += u`, `result_tot[1][ndim*idx : ndim*(idx+1)] = f`,
`result_tot[2] += vir`, `result_tot[3] += extra`, child by child. -/
def mergeAux (ndim : Nat) : Nat → FFResult → List FFResult → FFResult
  | _, acc, [] => acc
  | idx, acc, r :: rs =>
      mergeAux ndim (idx + 1)
        ⟨acc.u + r.u, setSlice acc.f (ndim * idx) r.f,
         Mat3.add acc.vir r.vir, acc.extra ++ r.extra⟩ rs

/-- Fan-in merge of the child results into
`result_tot = [0.0, np.zeros(len(pbcpos)), np.zeros((3,3)), ""]`.
`npos` is the full coordinate count (atoms plus photons), `ndim` the
per-bath coordinate count `ndim_local = ndim_tot // n_independent_bath`. -/
def cavph_merge (npos ndim : Nat) (results : List FFResult) : FFResult :=
  mergeAux ndim 0 ⟨0, List.replicate npos 0, Mat3.zero, ""⟩ results

/-- Sum of a list of virial matrices. -/
def matListSum (l : List Mat3) : Mat3 :=
  l.foldl Mat3.add Mat3.zero

/-- Strided in-place addition `l[p0 : stop : 3] += vals` used for the
cavity forces on nuclei. -/
def addStride3 : List ℚ → Nat → Nat → List ℚ → List ℚ
  | l, _, _, [] => l
  | l, p, stop, v :: vs =>
      if p < stop then addStride3 (l.set p (l.getD p 0 + v)) (p + 3) stop vs
      else l

/-- The photonic correction block of `FFCavPhFPSocket.queue` (steps 4-8),
entered when `self.ph.apply_photon`: `result_tot[0] += e_ph`,
`result_tot[1][:ndim_tot:3] += fx_cav`, `result_tot[1][1:ndim_tot:3] += fy_cav`,
`result_tot[1][ndim_tot:] = f_ph`.  The quantities `e_ph`, `fx_cav`,
`fy_cav`, `f_ph` are produced by the photon-physics collaborator
(`PhotonDriverFabryPerot.get_ph_energy` / `get_nuc_cav_forces` /
`get_ph_forces`), which the spec designates an out-of-scope physics hook
(§4.5 step 6); they enter here as parameters. -/
def cavph_apply_corr (ndimTot : Nat) (ePh : ℚ) (fxCav fyCav fPh : List ℚ)
    (res : FFResult) : FFResult :=
  let f1 := addStride3 res.f 0 ndimTot fxCav
  let f2 := addStride3 f1 1 ndimTot fyCav
  { res with u := res.u + ePh, f := f2.take ndimTot ++ fPh }

/-- The synthetic aggregate `ForceRequest` built at the end of
`FFCavPhFPSocket.queue`: `status` and `t_finished` read `newreq_lst[-1]`
(the last-submitted child), while `start`, `t_queued` and `t_dispatched`
read `newreq_lst[0]` (the first-submitted child). -/
def cavph_synthesize (reqid : Int) (posRef : Nat) (ia : List Int)
    (cellm : List (List ℚ) × List (List ℚ)) (parStr : String)
    (res : FFResult) (children : List ReqData) : ReqData :=
  { reqid := reqid
    pos := posRef
    active := ia
    cellmats := cellm
    pars := parStr
    result := some res
    status := (children.getLastD defaultReq).status
    start := (children.headD defaultReq).start
    t_queued := (children.headD defaultReq).t_queued
    t_dispatched := (children.headD defaultReq).t_dispatched
    t_finished := (children.getLastD defaultReq).t_finished }

/-- One attempt of `FFCavPh.calc_bare_nuclear_force` (the external-process
`run_qc_driver` backend): the subprocess handshake files either fail to
read or fail the size check — `self.error_flag = True` and `(0, 0)` is
returned — or parse correctly, in which case `self.error_flag = False`
and the energy/force pair is returned.  File I/O is abstracted into the
attempt oracle: `oracle i` is the parse outcome of the i-th invocation. -/
def calcModel (oracle : Nat → Option (ℚ × List ℚ)) (i : Nat) :
    Bool × ℚ × List ℚ :=
  match oracle i with
  | none => (true, 0, [])
  | some (e, f) => (false, e, f)

/-- The retry loop of `FFCavPh.evaluate`:
`while self.error_flag: recompute; count_retry += 1;
if count_retry >= 50: softexit.trigger(...)`.
Modelled from the spec: `softexit.trigger` (the shutdown coordinator,
`ipi/utils/softexit.py`, not under the sources) is fatal and process-wide
(§7), so reaching it is the `none` outcome and no result is returned —
note the bound check precedes the loop re-test, so the 50th retry
escalates even if it parsed. -/
def retryAux (oracle : Nat → Option (ℚ × List ℚ)) (count : Nat) :
    Option (ℚ × List ℚ) :=
  let out := calcModel oracle (count + 1)
  if h : count + 1 ≥ 50 then none
  else if out.1 then retryAux oracle (count + 1)
  else some (out.2.1, out.2.2)
termination_by 50 - count
decreasing_by omega

/-- The evaluation core of `FFCavPh.evaluate` (non-photon branch, lines
1632-1642): one initial attempt, then the bounded retry loop while the
error flag is set. -/
def ffcavph_eval_core (oracle : Nat → Option (ℚ × List ℚ)) :
    Option (ℚ × List ℚ) :=
  let out := calcModel oracle 0
  if out.1 then retryAux oracle 0 else some (out.2.1, out.2.2)

/-- `FFCavPh.evaluate` tail: on success the record receives
`[e, mf, np.zeros((3,3)), ""]`, status "Done" and `t_finished`; on
escalation the record is abandoned (`none`). -/
def ffcavph_evaluate (oracle : Nat → Option (ℚ × List ℚ)) (clk : Nat)
    (d : ReqData) : Option ReqData :=
  match ffcavph_eval_core oracle with
  | some (e, mf) =>
      some { d with
        result := some ⟨e, mf, Mat3.zero, ""⟩,
        status := Status.Done,
        t_finished := clk }
  | none => none

/-! Concrete instances used by witnesses and counterexamples. -/

/-- A serial (non-threaded) base forcefield with default `active = [-1]`,
no parameters, no periodic folding. -/
def exCfg : FFConfig := ⟨"", [], false, [-1], false⟩

/-- A fresh instance whose caller owns one 1-atom position array. -/
def exS0 : FFState := initStateWith [[0, 0, 0]]

/-- One serial submission against `exS0`. -/
def exQ : Except String (FFState × Nat) := ff_queue exCfg foldId exS0 0 cell0 0

/-- The state after that submission. -/
def exS1 : FFState := stateOf exS0 exQ

/-- An active list whose FIRST atom index (5) is out of range for a 3-atom
system but whose last index (0) is not. -/
def cfgC5 : FFConfig := ⟨"", [], false, [5, 0], false⟩

/-- A fresh instance over a 3-atom (9-coordinate) position array. -/
def s5 : FFState := initStateWith [List.replicate 9 0]

/-- A state whose heap holds two value-identical records, both queued:
the situation the identity-equality override exists for. -/
def dupState : FFState :=
  ⟨[[0, 0, 0]], [defaultReq, defaultReq], [0, 1], none, 0, false⟩

/-- First-submitted child of the aggregate (fan-in) counterexample. -/
def c8childA : ReqData :=
  { defaultReq with
    status := Status.Done
    t_queued := 1
    t_dispatched := 3
    t_finished := 5 }

/-- Last-submitted child; it finishes last (`t_finished = 10`). -/
def c8childB : ReqData :=
  { defaultReq with
    status := Status.Done
    t_queued := 2
    t_dispatched := 4
    t_finished := 10 }

def c8res : FFResult := ⟨0, [], Mat3.zero, ""⟩

/-- The synthetic aggregate record over those two children. -/
def c8agg : ReqData := cavph_synthesize 0 0 [] ([], []) " " c8res [c8childA, c8childB]

/-- Two concrete child results (per-bath coordinate count 3) for the
fan-in witness. -/
def c6results : List FFResult :=
  [⟨1, [1, 2, 3], Mat3.zero, "a"⟩,
   ⟨2, [4, 5, 6], ⟨1, 0, 0, 0, 1, 0, 0, 0, 1⟩, "b"⟩]

/-- An attempt oracle whose handshake files never parse. -/
def oracleFail : Nat → Option (ℚ × List ℚ) := fun _ => none

/-- An attempt oracle that fails once, then parses on the first retry. -/
def oracleOnce : Nat → Option (ℚ × List ℚ) :=
  fun i => if i = 1 then some (5, [1, 2]) else none

/-! ## Helper lemmas -/

theorem nodup_append_singleton {α : Type _} {l : List α} {a : α}
    (hl : l.Nodup) (ha : a ∉ l) : (l ++ [a]).Nodup := by
  induction l with
  | nil => simp
  | cons x xs ih =>
      rw [List.nodup_cons] at hl
      rw [List.cons_append, List.nodup_cons]
      refine ⟨?_, ih hl.2 (fun h => ha (List.mem_cons_of_mem x h))⟩
      intro hx
      rcases List.mem_append.mp hx with h | h
      · exact hl.1 h
      · exact ha (by simp [List.mem_singleton.mp h])

theorem getD_append_left {α : Type _} (l m : List α) (i : Nat) (d : α)
    (h : i < l.length) : (l ++ m).getD i d = l.getD i d := by
  rw [List.getD_eq_get?, List.getD_eq_get?, List.get?_append h]

theorem getD_append_concat {α : Type _} (l : List α) (a : α) (d : α) :
    (l ++ [a]).getD l.length d = a := by
  rw [List.getD_eq_get?, List.get?_concat_length]
  rfl

theorem pollStep_arrays (s : FFState) (t : Nat) :
    (pollStep s t).arrays = s.arrays := by
  unfold pollStep
  rcases s.heap.get? t with _ | d
  · rfl
  · by_cases h : d.status = Status.Queued <;> simp [h]

theorem pollStep_requests (s : FFState) (t : Nat) :
    (pollStep s t).requests = s.requests := by
  unfold pollStep
  rcases s.heap.get? t with _ | d
  · rfl
  · by_cases h : d.status = Status.Queued <;> simp [h]

theorem pollStep_iactive (s : FFState) (t : Nat) :
    (pollStep s t).iactive = s.iactive := by
  unfold pollStep
  rcases s.heap.get? t with _ | d
  · rfl
  · by_cases h : d.status = Status.Queued <;> simp [h]

theorem pollStep_clock (s : FFState) (t : Nat) :
    (pollStep s t).clock = s.clock := by
  unfold pollStep
  rcases s.heap.get? t with _ | d
  · rfl
  · by_cases h : d.status = Status.Queued <;> simp [h]

theorem pollStep_heap_length (s : FFState) (t : Nat) :
    (pollStep s t).heap.length = s.heap.length := by
  unfold pollStep
  rcases s.heap.get? t with _ | d
  · rfl
  · by_cases h : d.status = Status.Queued <;> simp [h]

theorem pollAux_arrays (l : List Nat) (s : FFState) :
    (pollAux s l).arrays = s.arrays := by
  induction l generalizing s with
  | nil => rfl
  | cons t ts ih => rw [pollAux, ih, pollStep_arrays]

theorem pollAux_requests (l : List Nat) (s : FFState) :
    (pollAux s l).requests = s.requests := by
  induction l generalizing s with
  | nil => rfl
  | cons t ts ih => rw [pollAux, ih, pollStep_requests]

theorem pollAux_iactive (l : List Nat) (s : FFState) :
    (pollAux s l).iactive = s.iactive := by
  induction l generalizing s with
  | nil => rfl
  | cons t ts ih => rw [pollAux, ih, pollStep_iactive]

theorem pollAux_clock (l : List Nat) (s : FFState) :
    (pollAux s l).clock = s.clock := by
  induction l generalizing s with
  | nil => rfl
  | cons t ts ih => rw [pollAux, ih, pollStep_clock]

theorem pollAux_heap_length (l : List Nat) (s : FFState) :
    (pollAux s l).heap.length = s.heap.length := by
  induction l generalizing s with
  | nil => rfl
  | cons t ts ih => rw [pollAux, ih, pollStep_heap_length]

theorem pollStep_get?_other (s : FFState) (t tok : Nat) (ht : t ≠ tok) :
    (pollStep s t).heap.get? tok = s.heap.get? tok := by
  unfold pollStep
  cases hg : s.heap.get? t with
  | none => rfl
  | some d2 =>
      dsimp only
      by_cases h2 : d2.status = Status.Queued
      · rw [if_pos h2]
        dsimp only
        exact List.get?_set_ne _ _ ht
      · rw [if_neg h2]

theorem pollStep_get?_self_queued (s : FFState) (t : Nat) (d : ReqData)
    (h : s.heap.get? t = some d) (hq : d.status = Status.Queued) :
    (pollStep s t).heap.get? t = some (completeReq s.arrays s.clock d) := by
  have hlt : t < s.heap.length := (List.get?_eq_some.mp h).1
  unfold pollStep
  rw [h]
  dsimp only
  rw [if_pos hq]
  dsimp only
  exact List.get?_set_eq_of_lt _ hlt

theorem pollStep_get?_nonqueued (s : FFState) (t tok : Nat) (d : ReqData)
    (h : s.heap.get? tok = some d) (hnq : d.status ≠ Status.Queued) :
    (pollStep s t).heap.get? tok = some d := by
  by_cases ht : t = tok
  · subst ht
    unfold pollStep
    rw [h]
    dsimp only
    rw [if_neg hnq]
    exact h
  · rw [pollStep_get?_other s t tok ht]
    exact h

theorem pollAux_get?_nonqueued (l : List Nat) (s : FFState) (tok : Nat)
    (d : ReqData) (h : s.heap.get? tok = some d)
    (hnq : d.status ≠ Status.Queued) :
    (pollAux s l).heap.get? tok = some d := by
  induction l generalizing s with
  | nil => exact h
  | cons t ts ih =>
      rw [pollAux]
      exact ih _ (pollStep_get?_nonqueued s t tok d h hnq)

theorem pollAux_get?_queued (l : List Nat) (s : FFState) (tok : Nat)
    (d : ReqData) (hmem : tok ∈ l) (h : s.heap.get? tok = some d)
    (hq : d.status = Status.Queued) :
    (pollAux s l).heap.get? tok = some (completeReq s.arrays s.clock d) := by
  induction l generalizing s with
  | nil => cases hmem
  | cons t ts ih =>
      rw [pollAux]
      by_cases ht : t = tok
      · subst ht
        exact pollAux_get?_nonqueued ts (pollStep s t) t _
          (pollStep_get?_self_queued s t d h hq) (by simp [completeReq])
      · have hmem2 : tok ∈ ts := by
          rcases List.mem_cons.mp hmem with h' | h'
          · exact absurd h'.symm ht
          · exact h'
        have hkeep : (pollStep s t).heap.get? tok = some d := by
          rw [pollStep_get?_other s t tok ht]
          exact h
        have := ih (pollStep s t) hmem2 hkeep
        rw [pollStep_arrays, pollStep_clock] at this
        exact this

theorem pollStep_pos_mem (s : FFState) (t : Nat) (d2 : ReqData)
    (h : d2 ∈ (pollStep s t).heap) : ∃ d0 ∈ s.heap, d2.pos = d0.pos := by
  unfold pollStep at h
  cases hg : s.heap.get? t with
  | none =>
      rw [hg] at h
      exact ⟨d2, h, rfl⟩
  | some d =>
      rw [hg] at h
      dsimp only at h
      by_cases hqd : d.status = Status.Queued
      · rw [if_pos hqd] at h
        dsimp only at h
        rcases List.mem_or_eq_of_mem_set h with h' | h'
        · exact ⟨d2, h', rfl⟩
        · exact ⟨d, List.get?_mem hg, by rw [h']; rfl⟩
      · rw [if_neg hqd] at h
        exact ⟨d2, h, rfl⟩

theorem pollAux_pos_mem (l : List Nat) (s : FFState) (d2 : ReqData)
    (h : d2 ∈ (pollAux s l).heap) : ∃ d0 ∈ s.heap, d2.pos = d0.pos := by
  induction l generalizing s with
  | nil => exact ⟨d2, h, rfl⟩
  | cons t ts ih =>
      rw [pollAux] at h
      rcases ih _ h with ⟨d1, hd1, he⟩
      rcases pollStep_pos_mem s t d1 hd1 with ⟨d0, hd0, he2⟩
      exact ⟨d0, hd0, by rw [he, he2]⟩

theorem stopStep_get?_other (s : FFState) (t tok : Nat) (ht : t ≠ tok) :
    (stopStep s t).heap.get? tok = s.heap.get? tok := by
  unfold stopStep
  cases hg : s.heap.get? t with
  | none => rfl
  | some d =>
      dsimp only
      exact List.get?_set_ne _ _ ht

theorem stopStep_get?_self (s : FFState) (t : Nat) (d : ReqData)
    (h : s.heap.get? t = some d) :
    (stopStep s t).heap.get? t = some { d with status := Status.Exit } := by
  have hlt : t < s.heap.length := (List.get?_eq_some.mp h).1
  unfold stopStep
  rw [h]
  dsimp only
  exact List.get?_set_eq_of_lt _ hlt

theorem stopAux_get? (l : List Nat) (s : FFState) (tok : Nat) :
    (stopAux s l).heap.get? tok =
      (s.heap.get? tok).map
        (fun d => if tok ∈ l then { d with status := Status.Exit } else d) := by
  induction l generalizing s with
  | nil =>
      rw [show stopAux s [] = s from rfl]
      cases s.heap.get? tok <;> simp
  | cons t ts ih =>
      rw [stopAux, ih]
      by_cases ht : t = tok
      · subst ht
        cases hg : s.heap.get? t with
        | none =>
            have hnone : (stopStep s t).heap.get? t = none := by
              unfold stopStep
              rw [hg]
              exact hg
            rw [hnone]
            simp
        | some d =>
            rw [stopStep_get?_self s t d hg]
            have hm : t ∈ t :: ts := List.mem_cons_self t ts
            by_cases hts : t ∈ ts <;> simp [hts, hm]
      · rw [stopStep_get?_other s t tok ht]
        have hmemiff : (tok ∈ t :: ts) ↔ (tok ∈ ts) := by
          rw [List.mem_cons]
          constructor
          · intro h
            rcases h with h | h
            · exact absurd h.symm ht
            · exact h
          · exact Or.inr
        cases hcase : s.heap.get? tok with
        | none => simp
        | some d => simp [hmemiff]

theorem enqueue_tok (cfg : FFConfig) (fold : Cell → List ℚ → List ℚ)
    (s : FFState) (qref : Nat) (cell : Cell) (reqid : Int) (p : String)
    (ia : List Int) :
    (enqueueNew cfg fold s qref cell reqid p ia).2 = s.heap.length := rfl

theorem enqueue_requests (cfg : FFConfig) (fold : Cell → List ℚ → List ℚ)
    (s : FFState) (qref : Nat) (cell : Cell) (reqid : Int) (p : String)
    (ia : List Int) :
    (enqueueNew cfg fold s qref cell reqid p ia).1.requests
      = s.requests ++ [s.heap.length] := by
  cases h : cfg.threaded with
  | true => simp [enqueueNew, h, enqueuedState]
  | false => simp [enqueueNew, h, ff_poll, pollAux_requests, enqueuedState]

theorem enqueue_arrays (cfg : FFConfig) (fold : Cell → List ℚ → List ℚ)
    (s : FFState) (qref : Nat) (cell : Cell) (reqid : Int) (p : String)
    (ia : List Int) :
    (enqueueNew cfg fold s qref cell reqid p ia).1.arrays
      = s.arrays ++ [pbcOf cfg fold s qref cell] := by
  cases h : cfg.threaded with
  | true => simp [enqueueNew, h, enqueuedState]
  | false => simp [enqueueNew, h, ff_poll, pollAux_arrays, enqueuedState]

theorem enqueue_iactive (cfg : FFConfig) (fold : Cell → List ℚ → List ℚ)
    (s : FFState) (qref : Nat) (cell : Cell) (reqid : Int) (p : String)
    (ia : List Int) :
    (enqueueNew cfg fold s qref cell reqid p ia).1.iactive = s.iactive := by
  cases h : cfg.threaded with
  | true => simp [enqueueNew, h, enqueuedState]
  | false => simp [enqueueNew, h, ff_poll, pollAux_iactive, enqueuedState]

theorem enqueue_heap_length (cfg : FFConfig) (fold : Cell → List ℚ → List ℚ)
    (s : FFState) (qref : Nat) (cell : Cell) (reqid : Int) (p : String)
    (ia : List Int) :
    (enqueueNew cfg fold s qref cell reqid p ia).1.heap.length
      = s.heap.length + 1 := by
  cases h : cfg.threaded with
  | true => simp [enqueueNew, h, enqueuedState]
  | false => simp [enqueueNew, h, ff_poll, pollAux_heap_length, enqueuedState]

theorem enqueuedState_get?_new (cfg : FFConfig) (fold : Cell → List ℚ → List ℚ)
    (s : FFState) (qref : Nat) (cell : Cell) (reqid : Int) (p : String)
    (ia : List Int) :
    (enqueuedState cfg fold s qref cell reqid p ia).heap.get? s.heap.length
      = some (newReqOf s cell reqid p ia) := by
  unfold enqueuedState
  dsimp only
  exact List.get?_concat_length _ _

theorem enqueue_get?_new (cfg : FFConfig) (fold : Cell → List ℚ → List ℚ)
    (s : FFState) (qref : Nat) (cell : Cell) (reqid : Int) (p : String)
    (ia : List Int) :
    ∃ d', (enqueueNew cfg fold s qref cell reqid p ia).1.heap.get?
        s.heap.length = some d' ∧
      d'.active = ia ∧ d'.pos = s.arrays.length ∧
      d'.cellmats = (cell.h, cell.ih) ∧ d'.reqid = reqid := by
  cases h : cfg.threaded with
  | true =>
      refine ⟨newReqOf s cell reqid p ia, ?_, rfl, rfl, rfl, rfl⟩
      simp only [enqueueNew, h, if_pos]
      exact enqueuedState_get?_new cfg fold s qref cell reqid p ia
  | false =>
      have hmem : s.heap.length
          ∈ (enqueuedState cfg fold s qref cell reqid p ia).requests := by
        unfold enqueuedState
        dsimp only
        exact List.mem_append.mpr (Or.inr (List.mem_singleton.mpr rfl))
      have hq := pollAux_get?_queued
        (enqueuedState cfg fold s qref cell reqid p ia).requests
        (enqueuedState cfg fold s qref cell reqid p ia) s.heap.length
        (newReqOf s cell reqid p ia) hmem
        (enqueuedState_get?_new cfg fold s qref cell reqid p ia) rfl
      refine ⟨completeReq (enqueuedState cfg fold s qref cell reqid p ia).arrays
        (enqueuedState cfg fold s qref cell reqid p ia).clock
        (newReqOf s cell reqid p ia), ?_, rfl, rfl, rfl, rfl⟩
      simp only [enqueueNew, h, Bool.false_eq_true, if_false, ff_poll]
      exact hq

theorem enqueue_serial_done (cfg : FFConfig) (fold : Cell → List ℚ → List ℚ)
    (s : FFState) (qref : Nat) (cell : Cell) (reqid : Int) (p : String)
    (ia : List Int) (h : cfg.threaded = false) :
    ∃ d', (enqueueNew cfg fold s qref cell reqid p ia).1.heap.get?
        s.heap.length = some d' ∧
      d'.status = Status.Done ∧ d'.active = ia ∧
      d'.pos = s.arrays.length ∧
      d'.result = some (zeroResultFor (pbcOf cfg fold s qref cell).length) := by
  have hmem : s.heap.length
      ∈ (enqueuedState cfg fold s qref cell reqid p ia).requests := by
    unfold enqueuedState
    dsimp only
    exact List.mem_append.mpr (Or.inr (List.mem_singleton.mpr rfl))
  have hq := pollAux_get?_queued
    (enqueuedState cfg fold s qref cell reqid p ia).requests
    (enqueuedState cfg fold s qref cell reqid p ia) s.heap.length
    (newReqOf s cell reqid p ia) hmem
    (enqueuedState_get?_new cfg fold s qref cell reqid p ia) rfl
  refine ⟨completeReq (enqueuedState cfg fold s qref cell reqid p ia).arrays
    (enqueuedState cfg fold s qref cell reqid p ia).clock
    (newReqOf s cell reqid p ia), ?_, rfl, rfl, rfl, ?_⟩
  · simp only [enqueueNew, h, Bool.false_eq_true, if_false, ff_poll]
    exact hq
  · have harr : (enqueuedState cfg fold s qref cell reqid p ia).arrays.getD
        (newReqOf s cell reqid p ia).pos [] = pbcOf cfg fold s qref cell := by
      show (s.arrays ++ [pbcOf cfg fold s qref cell]).getD s.arrays.length []
        = pbcOf cfg fold s qref cell
      exact getD_append_concat _ _ _
    show some (zeroResultFor (((enqueuedState cfg fold s qref cell reqid
        p ia).arrays.getD (newReqOf s cell reqid p ia).pos []).length))
      = some (zeroResultFor (pbcOf cfg fold s qref cell).length)
    rw [harr]

theorem enqueue_preserves_nonqueued (cfg : FFConfig)
    (fold : Cell → List ℚ → List ℚ) (s : FFState) (qref : Nat) (cell : Cell)
    (reqid : Int) (p : String) (ia : List Int) (tok : Nat) (d : ReqData)
    (h : s.heap.get? tok = some d) (hnq : d.status ≠ Status.Queued) :
    (enqueueNew cfg fold s qref cell reqid p ia).1.heap.get? tok = some d := by
  have hlt : tok < s.heap.length := (List.get?_eq_some.mp h).1
  have h1 : (enqueuedState cfg fold s qref cell reqid p ia).heap.get? tok
      = some d := by
    unfold enqueuedState
    dsimp only
    rw [List.get?_append hlt]
    exact h
  cases hth : cfg.threaded with
  | true =>
      simp only [enqueueNew, hth, if_pos]
      exact h1
  | false =>
      simp only [enqueueNew, hth, Bool.false_eq_true, if_false, ff_poll]
      exact pollAux_get?_nonqueued _ _ _ _ h1 hnq

theorem set_iactive_self (s : FFState) (ia : List Int)
    (h : s.iactive = some ia) : { s with iactive := some ia } = s := by
  cases s
  simp only at h
  rw [h]

theorem queue_ok_cases (cfg : FFConfig) (fold : Cell → List ℚ → List ℚ)
    (s : FFState) (qref : Nat) (cell : Cell) (reqid : Int)
    (s' : FFState) (tok : Nat)
    (h : ff_queue cfg fold s qref cell reqid = Except.ok (s', tok)) :
    ∃ ia, (s', tok) = enqueueNew cfg fold { s with iactive := some ia }
        qref cell reqid (mkParStr cfg.pars) ia ∧
      (s.iactive = some ia ∨
        (s.iactive = none ∧
          ia = computeActive cfg.active (s.arrays.getD qref []).length)) := by
  unfold ff_queue at h
  cases hia : s.iactive with
  | some ia =>
      rw [hia] at h
      dsimp only at h
      refine ⟨ia, ?_, Or.inl rfl⟩
      rw [set_iactive_self s ia hia]
      exact (Except.ok.injEq _ _ ▸ h).symm ▸ rfl
  | none =>
      rw [hia] at h
      dsimp only at h
      by_cases hg : activeGuard
          (computeActive cfg.active (s.arrays.getD qref []).length)
          (s.arrays.getD qref []).length
      · rw [if_pos hg] at h
        cases h
      · rw [if_neg hg] at h
        refine ⟨computeActive cfg.active (s.arrays.getD qref []).length,
          ?_, Or.inr ⟨rfl, rfl⟩⟩
        cases h
        rfl

theorem getLastD_irrel {α : Type _} (l : List α) (a : α) (d1 d2 : α) :
    (a :: l).getLastD d1 = (a :: l).getLastD d2 := by
  rw [List.getLastD_cons, List.getLastD_cons]

theorem getLastD_append_ne_nil {α : Type _} (l1 : List α) (a : α)
    (l2 : List α) (d : α) :
    (l1 ++ a :: l2).getLastD d = (a :: l2).getLastD d := by
  induction l1 generalizing d with
  | nil => rfl
  | cons x xs ih =>
      rw [List.cons_append, List.getLastD_cons]
      rcases xs with _ | ⟨y, ys⟩
      · rw [List.nil_append]
        exact getLastD_irrel l2 a x d
      · rw [ih x]
        exact getLastD_irrel l2 a x d

theorem triples_flatten_getLastD (l : List Int) (a : Int) :
    (((a :: l).map (fun n => [3 * n, 3 * n + 1, 3 * n + 2])).flatten).getLastD 0
      = 3 * ((a :: l).getLastD 0) + 2 := by
  induction l generalizing a with
  | nil => simp
  | cons b bs ih =>
      rw [List.map_cons, List.flatten_cons]
      have h2 : ((b :: bs).map (fun n => [3 * n, 3 * n + 1, 3 * n + 2])).flatten
          = (3 * b) :: ((3 * b + 1) :: (3 * b + 2) ::
            ((bs.map (fun n => [3 * n, 3 * n + 1, 3 * n + 2])).flatten)) := by
        rw [List.map_cons, List.flatten_cons]
        rfl
      rw [h2, getLastD_append_ne_nil, ← h2, ih b]
      simp [List.getLastD_cons]

theorem setSlice_length (vals : List ℚ) : ∀ (l : List ℚ) (off : Nat),
    (setSlice l off vals).length = l.length := by
  induction vals with
  | nil => intro l off; rfl
  | cons v vs ih =>
      intro l off
      rw [setSlice, ih, List.length_set]

theorem setSlice_get?_lt (vals : List ℚ) : ∀ (l : List ℚ) (off j : Nat),
    j < off → (setSlice l off vals).get? j = l.get? j := by
  induction vals with
  | nil => intro l off j _; rfl
  | cons v vs ih =>
      intro l off j hj
      rw [setSlice, ih _ _ _ (by omega)]
      exact List.get?_set_ne _ _ (by omega)

theorem setSlice_get?_mid (vals : List ℚ) : ∀ (l : List ℚ) (off j : Nat),
    j < vals.length → off + vals.length ≤ l.length →
    (setSlice l off vals).get? (off + j) = vals.get? j := by
  induction vals with
  | nil => intro l off j hj _; cases hj
  | cons v vs ih =>
      intro l off j hj hcap
      rw [setSlice]
      cases j with
      | zero =>
          rw [setSlice_get?_lt vs _ _ _ (by omega)]
          have hoff : off < l.length := by
            simp only [List.length_cons] at hcap
            omega
          rw [Nat.add_zero]
          rw [List.get?_set_eq_of_lt _ hoff]
          rfl
      | succ j' =>
          have : off + (j' + 1) = (off + 1) + j' := by omega
          rw [this, ih _ _ _ (by simpa using Nat.lt_of_succ_lt_succ hj)
            (by rw [List.length_set]; simp only [List.length_cons] at hcap; omega)]
          rfl

theorem mergeAux_u (ndim : Nat) (rs : List FFResult) :
    ∀ (idx : Nat) (acc : FFResult),
    (mergeAux ndim idx acc rs).u = acc.u + (rs.map FFResult.u).sum := by
  induction rs with
  | nil => intro idx acc; simp [mergeAux]
  | cons r rs' ih =>
      intro idx acc
      rw [mergeAux, ih]
      simp [add_assoc]

theorem mergeAux_vir (ndim : Nat) (rs : List FFResult) :
    ∀ (idx : Nat) (acc : FFResult),
    (mergeAux ndim idx acc rs).vir
      = (rs.map FFResult.vir).foldl Mat3.add acc.vir := by
  induction rs with
  | nil => intro idx acc; rfl
  | cons r rs' ih =>
      intro idx acc
      rw [mergeAux, ih, List.map_cons, List.foldl_cons]

theorem mergeAux_f_length (ndim : Nat) (rs : List FFResult) :
    ∀ (idx : Nat) (acc : FFResult),
    (mergeAux ndim idx acc rs).f.length = acc.f.length := by
  induction rs with
  | nil => intro idx acc; rfl
  | cons r rs' ih =>
      intro idx acc
      rw [mergeAux, ih]
      exact setSlice_length _ _ _

theorem mergeAux_f_lower (ndim : Nat) (rs : List FFResult) :
    ∀ (idx : Nat) (acc : FFResult) (j : Nat), j < ndim * idx →
    (mergeAux ndim idx acc rs).f.get? j = acc.f.get? j := by
  induction rs with
  | nil => intro idx acc j _; rfl
  | cons r rs' ih =>
      intro idx acc j hj
      rw [mergeAux, ih _ _ _ (by
        calc j < ndim * idx := hj
        _ ≤ ndim * (idx + 1) := Nat.mul_le_mul_left ndim (by omega))]
      exact setSlice_get?_lt _ _ _ _ hj

theorem mergeAux_f_slice (ndim : Nat) (rs : List FFResult) :
    ∀ (idx : Nat) (acc : FFResult),
    (∀ r ∈ rs, r.f.length = ndim) →
    ndim * (idx + rs.length) ≤ acc.f.length →
    ∀ (i : Nat) (hi : i < rs.length) (j : Nat), j < ndim →
    (mergeAux ndim idx acc rs).f.get? (ndim * (idx + i) + j)
      = (rs.get ⟨i, hi⟩).f.get? j := by
  induction rs with
  | nil => intro idx acc _ _ i hi; cases hi
  | cons r rs' ih =>
      intro idx acc hlen hcap i hi j hj
      rw [mergeAux]
      cases i with
      | zero =>
          have hrlen : r.f.length = ndim := hlen r (List.mem_cons_self r rs')
          have hlow : ndim * idx + j < ndim * (idx + 1) := by
            rw [Nat.mul_add, Nat.mul_one]
            omega
          have hcap2 : ndim * idx + r.f.length ≤ acc.f.length := by
            rw [hrlen]
            calc ndim * idx + ndim = ndim * (idx + 1) := by ring
            _ ≤ ndim * (idx + (rs'.length + 1)) :=
                Nat.mul_le_mul_left ndim (by omega)
            _ ≤ acc.f.length := by simpa using hcap
          have hmid := setSlice_get?_mid r.f acc.f (ndim * idx) j
            (by rw [hrlen]; exact hj) hcap2
          have hlowr := mergeAux_f_lower ndim rs' (idx + 1)
            ⟨acc.u + r.u, setSlice acc.f (ndim * idx) r.f,
             Mat3.add acc.vir r.vir, acc.extra ++ r.extra⟩
            (ndim * idx + j) hlow
          exact hlowr.trans hmid
      | succ i' =>
          have hi2 : i' < rs'.length := by
            simp only [List.length_cons] at hi
            omega
          have hcap2 : ndim * ((idx + 1) + rs'.length)
              ≤ (setSlice acc.f (ndim * idx) r.f).length := by
            rw [setSlice_length]
            have harr : (idx + 1) + rs'.length = idx + (rs'.length + 1) := by
              omega
            rw [harr]
            simpa using hcap
          have ihr := ih (idx + 1)
            ⟨acc.u + r.u, setSlice acc.f (ndim * idx) r.f,
             Mat3.add acc.vir r.vir, acc.extra ++ r.extra⟩
            (fun r' hr' => hlen r' (List.mem_cons_of_mem r hr'))
            hcap2 i' hi2 j hj
          have heq : ndim * (idx + (i' + 1)) + j
              = ndim * ((idx + 1) + i') + j := by
            have : idx + (i' + 1) = (idx + 1) + i' := by omega
            rw [this]
          rw [← heq] at ihr
          exact ihr

theorem retryAux_none (oracle : Nat → Option (ℚ × List ℚ)) :
    ∀ (n count : Nat), 50 - count = n →
    (∀ i, count < i → i ≤ 50 → oracle i = none) →
    retryAux oracle count = none := by
  intro n
  induction n with
  | zero =>
      intro count hc _
      rw [retryAux]
      rw [dif_pos (by omega : count + 1 ≥ 50)]
  | succ n ih =>
      intro count hc h
      rw [retryAux]
      by_cases hb : count + 1 ≥ 50
      · rw [dif_pos hb]
      · rw [dif_neg hb]
        have hor : oracle (count + 1) = none :=
          h (count + 1) (by omega) (by omega)
        simp only [calcModel, hor]
        rw [if_pos trivial]
        exact ih (count + 1) (by omega) (fun i h1 h2 => h i (by omega) h2)

theorem retryAux_hit (oracle : Nat → Option (ℚ × List ℚ)) (k : Nat)
    (e : ℚ) (f : List ℚ) (hk : k ≤ 49)
    (hfail : ∀ i, i < k → oracle i = none)
    (hsucc : oracle k = some (e, f)) :
    ∀ (n count : Nat), k - count = n → count < k →
    retryAux oracle count = some (e, f) := by
  intro n
  induction n with
  | zero => intro count h0 hck; omega
  | succ n ih =>
      intro count h0 hck
      rw [retryAux]
      rw [dif_neg (by omega : ¬ count + 1 ≥ 50)]
      by_cases hcase : count + 1 = k
      · rw [hcase]
        simp only [calcModel, hsucc]
        rw [if_neg (by simp)]
      · have hor : oracle (count + 1) = none :=
          hfail (count + 1) (by omega)
        simp only [calcModel, hor]
        rw [if_pos trivial]
        exact ih (count + 1) (by omega) (by omega)

theorem eval_core_none (oracle : Nat → Option (ℚ × List ℚ))
    (h : ∀ i, i ≤ 50 → oracle i = none) :
    ffcavph_eval_core oracle = none := by
  have h0 : oracle 0 = none := h 0 (by omega)
  unfold ffcavph_eval_core
  simp only [calcModel, h0]
  rw [if_pos trivial]
  exact retryAux_none oracle 50 0 rfl (fun i _ h2 => h i h2)

theorem eval_core_some (oracle : Nat → Option (ℚ × List ℚ)) (k : Nat)
    (e : ℚ) (f : List ℚ) (hk : k ≤ 49)
    (hfail : ∀ i, i < k → oracle i = none)
    (hsucc : oracle k = some (e, f)) :
    ffcavph_eval_core oracle = some (e, f) := by
  cases k with
  | zero =>
      unfold ffcavph_eval_core
      simp only [calcModel, hsucc]
      rw [if_neg (by simp)]
  | succ k' =>
      have h0 : oracle 0 = none := hfail 0 (by omega)
      unfold ffcavph_eval_core
      simp only [calcModel, h0]
      rw [if_pos trivial]
      exact retryAux_hit oracle (k' + 1) e f hk hfail hsucc (k' + 1) 0 rfl
        (by omega)

theorem pbcOf_length (cfg : FFConfig) (fold : Cell → List ℚ → List ℚ)
    (s : FFState) (qref : Nat) (cell : Cell)
    (hfold : ∀ c xs, (fold c xs).length = xs.length) :
    (pbcOf cfg fold s qref cell).length = (s.arrays.getD qref []).length := by
  unfold pbcOf
  by_cases h : cfg.dopbc
  · rw [if_pos h, hfold]
  · rw [if_neg h]

theorem enqueue_pos_mem (cfg : FFConfig) (fold : Cell → List ℚ → List ℚ)
    (s : FFState) (qref : Nat) (cell : Cell) (reqid : Int) (p : String)
    (ia : List Int) (d2 : ReqData)
    (h : d2 ∈ (enqueueNew cfg fold s qref cell reqid p ia).1.heap) :
    ∃ d0 ∈ s.heap ++ [newReqOf s cell reqid p ia], d2.pos = d0.pos := by
  cases hth : cfg.threaded with
  | true =>
      simp only [enqueueNew, hth, if_pos] at h
      exact ⟨d2, h, rfl⟩
  | false =>
      simp only [enqueueNew, hth, Bool.false_eq_true, if_false, ff_poll] at h
      exact pollAux_pos_mem _ _ _ h

theorem release_not_mem (s : FFState) (tok : Nat) (h : tok ∉ s.requests) :
    ff_release s tok = s := by
  unfold ff_release
  rw [if_neg h]

theorem release_mem_requests (s : FFState) (tok : Nat) (h : tok ∈ s.requests) :
    (ff_release s tok).requests = s.requests.erase tok := by
  unfold ff_release
  rw [if_pos h]

theorem release_heap (s : FFState) (tok : Nat) :
    (ff_release s tok).heap = s.heap := by
  unfold ff_release
  by_cases h : tok ∈ s.requests
  · rw [if_pos h]
  · rw [if_neg h]

/-- Claim C1: Request Records compare by identity — `reqEq` (the overridden
`__eq__`, hence membership via `in`) holds iff the two references are the
very same object; two records built from identical field values (equal heap
entries at distinct tokens) are unequal, and `release()` with a
distinct-but-value-equal reference never removes the intended record (and
removes nothing at all when that reference is not itself queued). -/
theorem spec_c1_identity_equality (s : FFState) (a b : Nat) :
    (reqEq a b = true ↔ a = b) ∧
    (a ≠ b → s.heap.get? a = s.heap.get? b →
      reqEq a b = false ∧
      (a ∈ s.requests → a ∈ (ff_release s b).requests) ∧
      (b ∉ s.requests → ff_release s b = s)) := by
  constructor
  · exact beq_iff_eq
  · intro hne _
    refine ⟨?_, ?_, ?_⟩
    · show (a == b) = false
      simp [hne]
    · intro ha
      unfold ff_release
      by_cases hb : b ∈ s.requests
      · rw [if_pos hb]
        exact (List.mem_erase_of_ne hne).mpr ha
      · rw [if_neg hb]
        exact ha
    · exact release_not_mem s b

/-- Claim C1 witness: a concrete state holding two value-identical records
at tokens 0 and 1, both queued; they are unequal and releasing token 1
keeps token 0 in the queue. -/
theorem spec_c1_witness :
    (0 : Nat) ≠ 1 ∧ dupState.heap.get? 0 = dupState.heap.get? 1 ∧
    reqEq 0 1 = false ∧ 0 ∈ (ff_release dupState 1).requests := by
  refine ⟨by decide, rfl, ?_, ?_⟩
  · exact ((spec_c1_identity_equality dupState 0 1).2 (by decide) rfl).1
  · exact ((spec_c1_identity_equality dupState 0 1).2 (by decide) rfl).2.1
      (by decide)

/-- Claim C3: releasing a reference that is not (identically) queued is a
no-op and raises nothing; releasing a queued reference removes exactly one
entry, after which the same reference is no longer queued, so the second
of two releases of the same record silently does nothing. -/
theorem spec_c3_release_noop (s : FFState) (tok : Nat)
    (hnd : s.requests.Nodup) :
    (tok ∉ s.requests → ff_release s tok = s) ∧
    (tok ∈ s.requests →
      (ff_release s tok).requests.length + 1 = s.requests.length ∧
      tok ∉ (ff_release s tok).requests) ∧
    ff_release (ff_release s tok) tok = ff_release s tok := by
  refine ⟨release_not_mem s tok, ?_, ?_⟩
  · intro h
    have hlen : s.requests.length ≠ 0 := by
      intro h0
      rw [List.length_eq_zero] at h0
      rw [h0] at h
      cases h
    constructor
    · rw [release_mem_requests s tok h, List.length_erase_of_mem h]
      omega
    · rw [release_mem_requests s tok h]
      intro hmem2
      exact (hnd.mem_erase_iff.mp hmem2).1 rfl
  · by_cases h : tok ∈ s.requests
    · have h2 : tok ∉ (ff_release s tok).requests := by
        rw [release_mem_requests s tok h]
        intro hmem2
        exact (hnd.mem_erase_iff.mp hmem2).1 rfl
      exact release_not_mem _ tok h2
    · rw [release_not_mem s tok h]
      exact release_not_mem s tok h

/-- Claim C3 witness: after one serial submission the queue holds token 0;
releasing an unqueued token is a no-op, releasing token 0 removes exactly
it, and the double release is idempotent. -/
theorem spec_c3_witness :
    exS1.requests.Nodup ∧
    (5 ∉ exS1.requests → ff_release exS1 5 = exS1) ∧
    (0 ∈ exS1.requests →
      (ff_release exS1 0).requests.length + 1 = exS1.requests.length) ∧
    ff_release (ff_release exS1 0) 0 = ff_release exS1 0 := by
  refine ⟨by decide, ?_, ?_, ?_⟩
  · exact fun h => (spec_c3_release_noop exS1 5 (by decide)).1 h
  · exact fun h => ((spec_c3_release_noop exS1 0 (by decide)).2.1 h).1
  · exact (spec_c3_release_noop exS1 0 (by decide)).2.2

/-- Claim C2 (amended): "Exit" is absorbing under every Dispatch Core
operation, and "Done" is absorbing under `poll` and `release`; but
`stop()` forces every currently-tracked record — including records already
"Done" — to "Exit", so "Done" is not absorbing under `stop`. -/
theorem spec_c2_terminal_absorbing (s : FFState) (tok t2 : Nat) (d : ReqData)
    (hget : s.heap.get? tok = some d) :
    ((d.status = Status.Done ∨ d.status = Status.Exit) →
      (ff_poll s).heap.get? tok = some d ∧
      (ff_release s t2).heap.get? tok = some d) ∧
    (d.status = Status.Exit → statusAt (ff_stop s) tok = some Status.Exit) ∧
    (tok ∈ s.requests → statusAt (ff_stop s) tok = some Status.Exit) := by
  have hstop : statusAt (ff_stop s) tok =
      some (if tok ∈ s.requests then Status.Exit else d.status) := by
    unfold statusAt ff_stop
    have hproj : ({ stopAux s s.requests with doloop := false } : FFState).heap
        = (stopAux s s.requests).heap := rfl
    rw [hproj, stopAux_get? s.requests s tok, hget]
    by_cases hm : tok ∈ s.requests <;> simp [hm]
  refine ⟨?_, ?_, ?_⟩
  · intro hterm
    constructor
    · refine pollAux_get?_nonqueued _ _ _ _ hget ?_
      rcases hterm with h | h <;> simp [h]
    · rw [release_heap]
      exact hget
  · intro hexit
    rw [hstop, hexit]
    by_cases hm : tok ∈ s.requests <;> simp [hm]
  · intro hmem
    rw [hstop]
    simp [hmem]

/-- Claim C2 counterexample: in a concrete serial run the submitted record
reaches "Done", yet `stop()` changes its status to "Exit" — a transition
out of the terminal "Done" state, contradicting the claim that no
operation ever changes a Done record's status. -/
theorem spec_c2_counterexample :
    statusAt exS1 0 = some Status.Done ∧
    statusAt (ff_stop exS1) 0 = some Status.Exit ∧
    Status.Done ≠ Status.Exit := by
  refine ⟨by decide, by decide, by decide⟩

/-- Claim C2 witness: the record of the concrete run, once "Exit", keeps
status and full field values across `poll`, `release` and `stop`. -/
theorem spec_c2_witness :
    ((recAt (ff_stop exS1) 0).status = Status.Done ∨
      (recAt (ff_stop exS1) 0).status = Status.Exit) ∧
    (ff_poll (ff_stop exS1)).heap.get? 0 = some (recAt (ff_stop exS1) 0) ∧
    (ff_release (ff_stop exS1) 0).heap.get? 0
      = some (recAt (ff_stop exS1) 0) ∧
    statusAt (ff_stop (ff_stop exS1)) 0 = some Status.Exit := by
  have h := spec_c2_terminal_absorbing (ff_stop exS1) 0 0
    (recAt (ff_stop exS1) 0) rfl
  have hterm : (recAt (ff_stop exS1) 0).status = Status.Done ∨
      (recAt (ff_stop exS1) 0).status = Status.Exit := Or.inr (by decide)
  exact ⟨hterm, (h.1 hterm).1, (h.1 hterm).2, h.2.1 (by decide)⟩

/-- Claim C5 (amended): the first submission's sizing check only compares
the flattened active array's length and its LAST entry against the
coordinate count, so a submit on a fresh instance fails with `ValueError`
("There are more active atoms than atoms!") and appends no record whenever
the last active atom index is out of range (which covers every ascending
active list containing an out-of-range index); an out-of-range index that
is not last can escape the check (see the counterexample). -/
theorem spec_c5_sizing_error (cfg : FFConfig) (fold : Cell → List ℚ → List ℚ)
    (s : FFState) (qref : Nat) (cell : Cell) (reqid : Int) (nat : Nat)
    (hia : s.iactive = none)
    (hhead : cfg.active.headD 0 ≠ -1)
    (hne : cfg.active ≠ [])
    (hlen : (s.arrays.getD qref []).length = 3 * nat)
    (hout : (nat : Int) ≤ cfg.active.getLastD 0) :
    ff_queue cfg fold s qref cell reqid
      = Except.error "There are more active atoms than atoms!" := by
  have hguard : activeGuard
      (computeActive cfg.active (s.arrays.getD qref []).length)
      (s.arrays.getD qref []).length := by
    unfold activeGuard computeActive
    rw [if_neg hhead]
    refine Or.inr ?_
    rw [hlen]
    cases hact : cfg.active with
    | nil => exact absurd hact hne
    | cons a l =>
        rw [triples_flatten_getLastD l a]
        rw [hact] at hout
        push_cast
        omega
  unfold ff_queue
  rw [hia]
  dsimp only
  rw [if_pos hguard]

/-- Claim C5 witness: a 3-atom system with the ascending active list
`[2, 5]` whose last index 5 is out of range; the first submit raises the
sizing error. -/
theorem spec_c5_witness :
    (initStateWith [List.replicate 9 0]).iactive = none ∧
    (((initStateWith [List.replicate 9 0]).arrays.getD 0 []).length = 3 * 3) ∧
    ((3 : Nat) : Int) ≤ ([2, 5] : List Int).getLastD 0 ∧
    ff_queue ⟨"", [], false, [2, 5], false⟩ foldId
        (initStateWith [List.replicate 9 0]) 0 cell0 (-1)
      = Except.error "There are more active atoms than atoms!" := by
  refine ⟨rfl, by decide, by decide, ?_⟩
  exact spec_c5_sizing_error ⟨"", [], false, [2, 5], false⟩ foldId
    (initStateWith [List.replicate 9 0]) 0 cell0 (-1) 3 rfl
    (by decide) (by decide) (by decide) (by decide)

/-- Claim C5 counterexample: the active list `[5, 0]` on a 3-atom system
contains the out-of-range atom index 5 (5 >= 3), yet because 5 is not the
LAST entry the sanity check passes: the submit succeeds and a Request
Record is appended, contradicting the claim that every active list
containing an out-of-range index fails with a sizing error and appends
nothing. -/
theorem spec_c5_counterexample :
    (5 : Int) ∈ cfgC5.active ∧
    ((s5.arrays.getD 0 []).length = 3 * 3 ∧ ¬ ((5 : Int) < 3)) ∧
    queueLenOf s5 (ff_queue cfgC5 foldId s5 0 cell0 (-1)) = 1 ∧
    statusAt (stateOf s5 (ff_queue cfgC5 foldId s5 0 cell0 (-1))) 0
      = some Status.Done := by
  refine ⟨by decide, ⟨by decide, by decide⟩, by decide, by decide⟩

/-- Claim C7: `iactive` is computed lazily on the first successful submit
and cached; on every later submit the call succeeds without recomputation,
the cached value is unchanged, and the new record carries exactly that
cached index array — for any input coordinate array. -/
theorem spec_c7_iactive_cached (cfg : FFConfig) (fold : Cell → List ℚ → List ℚ)
    (s : FFState) (qref : Nat) (cell : Cell) (reqid : Int) :
    (∀ ia, s.iactive = some ia →
      ∃ s' tok, ff_queue cfg fold s qref cell reqid = Except.ok (s', tok) ∧
        s'.iactive = some ia ∧
        ∃ d', s'.heap.get? tok = some d' ∧ d'.active = ia) ∧
    (∀ s' tok, s.iactive = none →
      ff_queue cfg fold s qref cell reqid = Except.ok (s', tok) →
      s'.iactive
        = some (computeActive cfg.active (s.arrays.getD qref []).length) ∧
      ∃ d', s'.heap.get? tok = some d' ∧
        d'.active
          = computeActive cfg.active (s.arrays.getD qref []).length) := by
  constructor
  · intro ia hia
    refine ⟨(enqueueNew cfg fold s qref cell reqid (mkParStr cfg.pars) ia).1,
      (enqueueNew cfg fold s qref cell reqid (mkParStr cfg.pars) ia).2,
      ?_, ?_, ?_⟩
    · unfold ff_queue
      rw [hia]
    · rw [enqueue_iactive]
      exact hia
    · rcases enqueue_get?_new cfg fold s qref cell reqid (mkParStr cfg.pars)
        ia with ⟨d', hd', hact, _, _, _⟩
      exact ⟨d', hd', hact⟩
  · intro s' tok hia hok
    rcases queue_ok_cases cfg fold s qref cell reqid s' tok hok with
      ⟨ia, hpair, hcases⟩
    have hiaval : ia = computeActive cfg.active (s.arrays.getD qref []).length := by
      rcases hcases with h | h
      · rw [hia] at h
        cases h
      · exact h.2
    have hs' : s' = (enqueueNew cfg fold { s with iactive := some ia }
        qref cell reqid (mkParStr cfg.pars) ia).1 := congrArg Prod.fst hpair
    have htok : tok = s.heap.length := congrArg Prod.snd hpair
    constructor
    · rw [hs', enqueue_iactive]
      show some ia = _
      rw [hiaval]
    · rcases enqueue_get?_new cfg fold { s with iactive := some ia }
        qref cell reqid (mkParStr cfg.pars) ia with ⟨d', hd', hact, _, _, _⟩
      refine ⟨d', ?_, ?_⟩
      · rw [hs', htok]
        exact hd'
      · rw [← hiaval]
        exact hact

/-- Claim C7 witness: after the first submission `exS1` caches
`iactive = [0, 1, 2]`; a further submission on a different-size array
succeeds, keeps the cache, and attaches it to the new record. -/
theorem spec_c7_witness :
    exS1.iactive = some [0, 1, 2] ∧
    (∃ s' tok, ff_queue exCfg foldId exS1 0 cell0 7 = Except.ok (s', tok) ∧
      s'.iactive = some [0, 1, 2] ∧
      ∃ d', s'.heap.get? tok = some d' ∧ d'.active = [0, 1, 2]) := by
  refine ⟨by decide, ?_⟩
  exact (spec_c7_iactive_cached exCfg foldId exS1 0 cell0 7).1 [0, 1, 2]
    (by decide)

/-- Claim C10: a submission never mutates the caller's position array —
folding is applied only to the private copy stored at the new record's
`pos` reference, which is distinct from the caller's reference, and the
cell matrices stored in the record are value copies of `(cell.h, cell.ih)`. -/
theorem spec_c10_no_caller_mutation (cfg : FFConfig)
    (fold : Cell → List ℚ → List ℚ) (s : FFState) (qref : Nat) (cell : Cell)
    (reqid : Int) (s' : FFState) (tok : Nat)
    (hq : qref < s.arrays.length)
    (hok : ff_queue cfg fold s qref cell reqid = Except.ok (s', tok)) :
    s'.arrays.get? qref = s.arrays.get? qref ∧
    ∃ d', s'.heap.get? tok = some d' ∧ d'.pos ≠ qref ∧
      s'.arrays.get? d'.pos = some (pbcOf cfg fold s qref cell) ∧
      d'.cellmats = (cell.h, cell.ih) := by
  rcases queue_ok_cases cfg fold s qref cell reqid s' tok hok with
    ⟨ia, hpair, _⟩
  have hs' : s' = (enqueueNew cfg fold { s with iactive := some ia }
      qref cell reqid (mkParStr cfg.pars) ia).1 := congrArg Prod.fst hpair
  have htok : tok = s.heap.length := congrArg Prod.snd hpair
  have harr : s'.arrays = s.arrays ++ [pbcOf cfg fold s qref cell] := by
    rw [hs']
    exact enqueue_arrays cfg fold { s with iactive := some ia } qref cell
      reqid (mkParStr cfg.pars) ia
  constructor
  · rw [harr]
    exact List.get?_append hq
  · rcases enqueue_get?_new cfg fold { s with iactive := some ia }
      qref cell reqid (mkParStr cfg.pars) ia with
      ⟨d', hd', _, hpos, hcm, _⟩
    refine ⟨d', ?_, ?_, ?_, hcm⟩
    · rw [hs', htok]
      exact hd'
    · rw [hpos]
      show s.arrays.length ≠ qref
      omega
    · rw [harr, hpos]
      show (s.arrays ++ [pbcOf cfg fold s qref cell]).get? s.arrays.length = _
      exact List.get?_concat_length _ _

/-- Claim C10 witness: the concrete serial submission leaves the caller's
array (reference 0) untouched and stores the private copy at the fresh
reference 1. -/
theorem spec_c10_witness :
    0 < exS0.arrays.length ∧
    exS1.arrays.get? 0 = exS0.arrays.get? 0 ∧
    (∃ d', exS1.heap.get? 0 = some d' ∧ d'.pos ≠ 0 ∧
      exS1.arrays.get? d'.pos = some (pbcOf exCfg foldId exS0 0 cell0) ∧
      d'.cellmats = (cell0.h, cell0.ih)) := by
  have h := spec_c10_no_caller_mutation exCfg foldId exS0 0 cell0 0 exS1 0
    (by decide) rfl
  exact ⟨by decide, h.1, h.2⟩

/-- Claim C4: in serial (non-threaded) mode with the base/dummy backend,
every submit triggers a synchronous poll pass before returning, so the
"all records Done with the zero result" invariant is preserved by each
submit from the empty initial queue: after it returns, every tracked
record is "Done" with energy 0, a zero force vector as long as its
position array, a zero 3x3 virial and empty extra string, and the record
just created carries the zero force vector of the submitted length. -/
theorem spec_c4_serial_all_done (cfg : FFConfig)
    (fold : Cell → List ℚ → List ℚ) (s : FFState) (qref : Nat) (cell : Cell)
    (reqid : Int) (s' : FFState) (tok : Nat)
    (hth : cfg.threaded = false)
    (hfold : ∀ c xs, (fold c xs).length = xs.length)
    (hwf : WF s) (hadz : AllDoneZero s)
    (hok : ff_queue cfg fold s qref cell reqid = Except.ok (s', tok)) :
    WF s' ∧ AllDoneZero s' ∧
    ∃ d', s'.heap.get? tok = some d' ∧ d'.status = Status.Done ∧
      d'.result = some (zeroResultFor (s.arrays.getD qref []).length) := by
  rcases queue_ok_cases cfg fold s qref cell reqid s' tok hok with
    ⟨ia, hpair, _⟩
  have hs' : s' = (enqueueNew cfg fold { s with iactive := some ia }
      qref cell reqid (mkParStr cfg.pars) ia).1 := congrArg Prod.fst hpair
  have htok : tok = s.heap.length := congrArg Prod.snd hpair
  have hreq : s'.requests = s.requests ++ [s.heap.length] := by
    rw [hs']
    exact enqueue_requests cfg fold { s with iactive := some ia } qref cell
      reqid (mkParStr cfg.pars) ia
  have harr : s'.arrays = s.arrays ++ [pbcOf cfg fold s qref cell] := by
    rw [hs']
    exact enqueue_arrays cfg fold { s with iactive := some ia } qref cell
      reqid (mkParStr cfg.pars) ia
  have hheaplen : s'.heap.length = s.heap.length + 1 := by
    rw [hs']
    exact enqueue_heap_length cfg fold { s with iactive := some ia } qref
      cell reqid (mkParStr cfg.pars) ia
  obtain ⟨dnew, hgetnew, hstnew, hactnew, hposnew, hresnew⟩ :=
    enqueue_serial_done cfg fold { s with iactive := some ia } qref cell
      reqid (mkParStr cfg.pars) ia hth
  have hplen : (pbcOf cfg fold s qref cell).length
      = (s.arrays.getD qref []).length :=
    pbcOf_length cfg fold s qref cell hfold
  refine ⟨⟨?_, ?_, ?_⟩, ?_, ?_⟩
  · rw [hreq]
    refine nodup_append_singleton hwf.1 ?_
    intro hmem
    exact Nat.lt_irrefl _ (hwf.2.1 _ hmem)
  · intro tk htk
    rw [hreq] at htk
    rw [hheaplen]
    rcases List.mem_append.mp htk with h | h
    · exact Nat.lt_succ_of_lt (hwf.2.1 tk h)
    · rw [List.mem_singleton.mp h]
      omega
  · intro d2 hd2
    rw [harr, List.length_append]
    rw [hs'] at hd2
    rcases enqueue_pos_mem cfg fold { s with iactive := some ia } qref cell
      reqid (mkParStr cfg.pars) ia d2 hd2 with ⟨d0, hd0, hpe⟩
    rcases List.mem_append.mp hd0 with h | h
    · have hlt : d0.pos < s.arrays.length := hwf.2.2 d0 h
      rw [hpe]
      simp only [List.length_singleton]
      omega
    · rw [List.mem_singleton.mp h] at hpe
      rw [hpe]
      show s.arrays.length < s.arrays.length + 1
      omega
  · intro tk htk
    rw [hreq] at htk
    rcases List.mem_append.mp htk with h | h
    · rcases hadz tk h with ⟨d, hget, hst, hres⟩
      have hget2 : s'.heap.get? tk = some d := by
        rw [hs']
        exact enqueue_preserves_nonqueued cfg fold
          { s with iactive := some ia } qref cell reqid (mkParStr cfg.pars)
          ia tk d hget (by rw [hst]; simp)
      refine ⟨d, hget2, hst, ?_⟩
      have hdpos : d.pos < s.arrays.length := hwf.2.2 d (List.get?_mem hget)
      rw [harr, getD_append_left _ _ _ _ hdpos]
      exact hres
    · rw [List.mem_singleton.mp h]
      refine ⟨dnew, ?_, hstnew, ?_⟩
      · rw [hs']
        exact hgetnew
      · rw [hresnew, harr, hposnew]
        show some (zeroResultFor (pbcOf cfg fold s qref cell).length)
          = some (zeroResultFor (((s.arrays ++ [pbcOf cfg fold s qref cell]).getD
            s.arrays.length []).length))
        rw [getD_append_concat]
  · refine ⟨dnew, ?_, hstnew, ?_⟩
    · rw [hs', htok]
      exact hgetnew
    · rw [hresnew]
      show some (zeroResultFor (pbcOf cfg fold s qref cell).length) = _
      rw [hplen]

/-- Claim C4 witness: two successive serial submissions from a fresh
instance — the invariant holds vacuously at the start, after the first
submit, and after the second, whose new record carries the zero result of
the submitted 3-coordinate length. -/
theorem spec_c4_witness :
    exCfg.threaded = false ∧ WF exS0 ∧ AllDoneZero exS0 ∧
    (WF exS1 ∧ AllDoneZero exS1 ∧
      ∃ d', exS1.heap.get? 0 = some d' ∧ d'.status = Status.Done ∧
        d'.result = some (zeroResultFor 3)) := by
  have h0 : AllDoneZero exS0 := fun tk htk => (List.not_mem_nil tk htk).elim
  have hwf0 : WF exS0 := ⟨List.nodup_nil, fun t ht => (List.not_mem_nil t ht).elim,
    fun d hd => (List.not_mem_nil d hd).elim⟩
  have hw := spec_c4_serial_all_done exCfg foldId exS0 0 cell0 0 exS1 0
    rfl (fun _ _ => rfl) hwf0 h0 rfl
  exact ⟨rfl, hwf0, h0, hw⟩

/-- Claim C6: the fan-in merge of K child results sums the child energies
and virials, and places child i's force block exactly at offset i times
the per-bath coordinate count of the combined force buffer, element for
element; with the photon hook enabled the aggregate energy is that sum
plus the photonic correction energy. -/
theorem spec_c6_fanin_merge (npos ndim ndimTot : Nat)
    (results : List FFResult) (ePh : ℚ) (fx fy fph : List ℚ)
    (hlen : ∀ r ∈ results, r.f.length = ndim)
    (hcap : ndim * results.length ≤ npos) :
    (cavph_merge npos ndim results).u = (results.map FFResult.u).sum ∧
    (cavph_merge npos ndim results).vir
      = matListSum (results.map FFResult.vir) ∧
    (∀ i (hi : i < results.length), ∀ j, j < ndim →
      (cavph_merge npos ndim results).f.get? (ndim * i + j)
        = (results.get ⟨i, hi⟩).f.get? j) ∧
    (cavph_apply_corr ndimTot ePh fx fy fph
        (cavph_merge npos ndim results)).u
      = (results.map FFResult.u).sum + ePh := by
  have hu : (cavph_merge npos ndim results).u
      = (results.map FFResult.u).sum := by
    unfold cavph_merge
    rw [mergeAux_u]
    simp
  refine ⟨hu, ?_, ?_, ?_⟩
  · unfold cavph_merge matListSum
    rw [mergeAux_vir]
  · intro i hi j hj
    have hs := mergeAux_f_slice ndim results 0
      ⟨0, List.replicate npos 0, Mat3.zero, ""⟩ hlen
      (by simpa using hcap) i hi j hj
    rw [Nat.zero_add] at hs
    exact hs
  · show (cavph_merge npos ndim results).u + ePh = _
    rw [hu]

/-- Claim C6 witness: two concrete child results with per-bath coordinate
count 3 merged into an 8-slot buffer, with a correction energy of 2. -/
theorem spec_c6_witness :
    (∀ r ∈ c6results, r.f.length = 3) ∧ 3 * c6results.length ≤ 8 ∧
    ((cavph_merge 8 3 c6results).u = (c6results.map FFResult.u).sum ∧
     (cavph_merge 8 3 c6results).vir
        = matListSum (c6results.map FFResult.vir) ∧
     (∀ i (hi : i < c6results.length), ∀ j, j < 3 →
        (cavph_merge 8 3 c6results).f.get? (3 * i + j)
          = (c6results.get ⟨i, hi⟩).f.get? j) ∧
     (cavph_apply_corr 6 2 [1, 1] [] [9, 9]
        (cavph_merge 8 3 c6results)).u
        = (c6results.map FFResult.u).sum + 2) := by
  refine ⟨by decide, by decide, ?_⟩
  exact spec_c6_fanin_merge 8 3 6 c6results 2 [1, 1] [] [9, 9]
    (by decide) (by decide)

/-- Claim C8 counterexample: with two Done children where the
last-finishing child is the second one (t_finished 10 > 5), the synthetic
aggregate record's queued-at timestamp is copied from the FIRST child
(value 1), not from the last-finishing child (value 2) — so the aggregate's
timestamps are not all copied from the last-finishing child. -/
theorem spec_c8_counterexample :
    c8childA.t_finished < c8childB.t_finished ∧
    c8agg.t_queued = c8childA.t_queued ∧
    c8agg.t_queued ≠ c8childB.t_queued := by
  refine ⟨by decide, by decide, by decide⟩

/-- Claim C8 (amended): the synthetic aggregate record copies `status` and
the finished-at timestamp from the LAST-SUBMITTED child, and the queued-at
and dispatched-at timestamps (and the start marker) from the
FIRST-SUBMITTED child; its result is the merged result. -/
theorem spec_c8_synthesize_fields (reqid : Int) (posRef : Nat)
    (ia : List Int) (cellm : List (List ℚ) × List (List ℚ))
    (parStr : String) (res : FFResult) (children : List ReqData)
    (h : children ≠ []) :
    (cavph_synthesize reqid posRef ia cellm parStr res children).status
      = (children.getLast h).status ∧
    (cavph_synthesize reqid posRef ia cellm parStr res children).t_finished
      = (children.getLast h).t_finished ∧
    (cavph_synthesize reqid posRef ia cellm parStr res children).t_queued
      = (children.head h).t_queued ∧
    (cavph_synthesize reqid posRef ia cellm parStr res children).t_dispatched
      = (children.head h).t_dispatched ∧
    (cavph_synthesize reqid posRef ia cellm parStr res children).start
      = (children.head h).start ∧
    (cavph_synthesize reqid posRef ia cellm parStr res children).result
      = some res := by
  cases children with
  | nil => exact absurd rfl h
  | cons c cs =>
      unfold cavph_synthesize
      refine ⟨?_, ?_, rfl, rfl, rfl, rfl⟩
      · show ((c :: cs).getLastD defaultReq).status
          = ((c :: cs).getLast h).status
        rw [List.getLast_eq_getLastD, List.getLastD_cons]
      · show ((c :: cs).getLastD defaultReq).t_finished
          = ((c :: cs).getLast h).t_finished
        rw [List.getLast_eq_getLastD, List.getLastD_cons]

/-- Claim C8 witness: the concrete two-child aggregate copies status and
finished-at from the last child and queued-at from the first child. -/
theorem spec_c8_witness :
    c8agg.status
      = ([c8childA, c8childB].getLast (List.cons_ne_nil _ _)).status ∧
    c8agg.t_finished
      = ([c8childA, c8childB].getLast (List.cons_ne_nil _ _)).t_finished ∧
    c8agg.t_queued
      = ([c8childA, c8childB].head (List.cons_ne_nil _ _)).t_queued ∧
    c8agg.result = some c8res := by
  have h := spec_c8_synthesize_fields 0 0 [] ([], []) " " c8res
    [c8childA, c8childB] (List.cons_ne_nil _ _)
  exact ⟨h.1, h.2.1, h.2.2.1, h.2.2.2.2.2⟩

/-- Claim C9: when the external-process backend reads malformed or missing
results it sets the error flag and re-runs the evaluation; the retry loop
is bounded at 50 retries and reaching the bound escalates to the shutdown
coordinator instead of returning a result (modelled from the spec:
`softexit.trigger` is fatal), while a successful re-evaluation within the
bound clears the flag and completes the record with status "Done" and the
parsed energy/forces. -/
theorem spec_c9_retry_bounded (oracle : Nat → Option (ℚ × List ℚ))
    (clk : Nat) (d : ReqData) :
    ((∀ i, i ≤ 50 → oracle i = none) →
      ffcavph_evaluate oracle clk d = none) ∧
    (∀ k e f, k ≤ 49 → (∀ i, i < k → oracle i = none) →
      oracle k = some (e, f) →
      ffcavph_evaluate oracle clk d
        = some { d with
            result := some ⟨e, f, Mat3.zero, ""⟩
            status := Status.Done
            t_finished := clk }) := by
  constructor
  · intro h
    unfold ffcavph_evaluate
    rw [eval_core_none oracle h]
  · intro k e f hk hfail hsucc
    unfold ffcavph_evaluate
    rw [eval_core_some oracle k e f hk hfail hsucc]

/-- Claim C9 witness: an oracle that never parses escalates (no result);
an oracle that fails once and parses on the first retry completes Done
with the parsed values. -/
theorem spec_c9_witness :
    ffcavph_evaluate oracleFail 3 defaultReq = none ∧
    (1 : Nat) ≤ 49 ∧
    ffcavph_evaluate oracleOnce 3 defaultReq
      = some { defaultReq with
          result := some ⟨5, [1, 2], Mat3.zero, ""⟩
          status := Status.Done
          t_finished := 3 } := by
  refine ⟨?_, by decide, ?_⟩
  · exact (spec_c9_retry_bounded oracleFail 3 defaultReq).1 (fun i _ => rfl)
  · exact (spec_c9_retry_bounded oracleOnce 3 defaultReq).2 1 5 [1, 2]
      (by decide)
      (fun i hi => by
        have hz : i = 0 := by omega
        rw [hz]
        rfl)
      rfl
